/-
  Verification of the Market Index and Adjustment Engine
  (market_condition_app_v4_15_premium_plus.py).

  The Python source is shallowly embedded: calendar dates become an explicit
  (year, month, day) structure ordered lexicographically, pandas NaN-able
  numeric cells become Option ℚ, exact rational arithmetic stands in for
  floating point, and the float functions log / sqrt become their real
  counterparts.  Each definition mirrors one function (or one block) of the
  source; the theorems at the end settle the specification claims.
-/
import Mathlib

set_option maxHeartbeats 1000000

/-- Calendar date, mirroring the `datetime.date` values flowing through the
source (`ContractDate` cells, `Month` keys).  Fields are unbounded integers;
real dates use 1 ≤ month ≤ 12 and 1 ≤ day ≤ 31, and all definitions below
are faithful on that range. -/
structure SDate where
  year : ℤ
  month : ℤ
  day : ℤ
deriving DecidableEq, Repr

/-- Strict order on dates: lexicographic on (year, month, day), exactly how
`datetime.date` (and hence the pandas `Month` comparisons) order dates. -/
def dateLt (a b : SDate) : Prop :=
  a.year < b.year ∨ (a.year = b.year ∧
    (a.month < b.month ∨ (a.month = b.month ∧ a.day < b.day)))

/-- Non-strict lexicographic order on dates. -/
def dateLe (a b : SDate) : Prop :=
  a.year < b.year ∨ (a.year = b.year ∧
    (a.month < b.month ∨ (a.month = b.month ∧ a.day ≤ b.day)))

instance : DecidableRel dateLt := fun a b => by unfold dateLt; exact inferInstance

instance : DecidableRel dateLe := fun a b => by unfold dateLe; exact inferInstance

instance : IsTrans SDate dateLe := ⟨by intro a b c h1 h2; unfold dateLe at *; omega⟩

instance : IsTotal SDate dateLe := ⟨by intro a b; unfold dateLe; omega⟩

instance : IsAntisymm SDate dateLe := by
  constructor
  intro a b h1 h2
  cases a; cases b
  simp only [dateLe] at h1 h2
  simp only [SDate.mk.injEq]
  omega

theorem dateLe_of_lt {a b : SDate} (h : dateLt a b) : dateLe a b := by
  unfold dateLt at h; unfold dateLe; omega

theorem dateLt_of_le_of_ne {a b : SDate} (h : dateLe a b) (hne : a ≠ b) : dateLt a b := by
  cases a; cases b
  simp only [dateLe] at h
  simp only [ne_eq, SDate.mk.injEq, not_and] at hne
  simp only [dateLt]
  omega

theorem not_dateLt_and_ge {a b : SDate} (h1 : dateLt a b) (h2 : dateLe b a) : False := by
  unfold dateLt at h1; unfold dateLe at h2; omega

/-- Mirrors `month_start`: the first day of the date's month. -/
def month_start (d : SDate) : SDate :=
  ⟨d.year, d.month, 1⟩

/-- Day number of a Gregorian calendar date (days since 1970-01-01), the
classic civil-from-days inverse.  This is exactly the day count pandas
assigns when subtracting two `Timestamp`s built from `date` objects. -/
def toDays (dt : SDate) : ℤ :=
  let y : ℤ := if dt.month ≤ 2 then dt.year - 1 else dt.year
  let era : ℤ := (if 0 ≤ y then y else y - 399) / 400
  let yoe : ℤ := y - era * 400
  let doy : ℤ := (153 * (dt.month + (if 2 < dt.month then -3 else 9)) + 2) / 5 + dt.day - 1
  let doe : ℤ := yoe * 365 + yoe / 4 - yoe / 100 + doy
  era * 146097 + doe - 719468

/-- Mirrors `days_between`: `abs((pd.Timestamp(d1) - pd.Timestamp(d2)).days)`. -/
def days_between (d1 d2 : SDate) : ℤ :=
  |toDays d1 - toDays d2|

/-- One row of the engine's input table: a cleaned sale record.  The source
drops rows with null `ContractDate` or `SoldPrice` before every computation
(and the spec's store invariant promises both fields are present), so the
embedded record carries total fields. -/
structure SaleRecord where
  contractDate : SDate
  soldPrice : ℚ
deriving DecidableEq, Repr

/-- Ascending sort of rationals, standing in for the sorts pandas performs
(`Series.quantile`, `median` order statistics). -/
def sortQ (l : List ℚ) : List ℚ :=
  List.insertionSort (fun a b => a ≤ b) l

/-- Statistical median as pandas computes it: middle order statistic for an
odd count, average of the two central order statistics for an even count. -/
def median (l : List ℚ) : ℚ :=
  let s := sortQ l
  let n := l.length
  if n % 2 = 1 then s.getD (n / 2) 0
  else (s.getD (n / 2 - 1) 0 + s.getD (n / 2) 0) / 2

/-- Quantile with linear interpolation between order statistics, mirroring
`pandas.Series.quantile(q)` (default interpolation="linear"). -/
def quantileQ (l : List ℚ) (q : ℚ) : ℚ :=
  let s := sortQ l
  let pos : ℚ := q * ((l.length : ℚ) - 1)
  let lo : ℕ := (⌊pos⌋).toNat
  let frac : ℚ := pos - (⌊pos⌋ : ℚ)
  s.getD lo 0 + frac * (s.getD (lo + 1) (s.getD lo 0) - s.getD lo 0)

/-- Mirrors `compute_iqr_flags_cached`: quartiles Q1/Q3 of the price column,
bounds `[Q1 - k*iqr, Q3 + k*iqr]`, one Boolean per price marking values
strictly outside the bounds. -/
def compute_iqr_flags_cached (sold_prices : List ℚ) (k : ℚ) : List Bool :=
  let q1 := quantileQ sold_prices (1/4)
  let q3 := quantileQ sold_prices (3/4)
  let iqr := q3 - q1
  let lo := q1 - k * iqr
  let hi := q3 + k * iqr
  sold_prices.map (fun p => decide (p < lo) || decide (hi < p))

/-- Mirrors `pct_change`: NaN (here `none`) if either index is NaN or the
contract index is exactly zero, else the relative change. -/
def pct_change (i_eff i_contract : Option ℚ) : Option ℚ :=
  match i_eff, i_contract with
  | some e, some c => if c = 0 then none else some (e / c - 1)
  | _, _ => none

/-- Mirrors `categorize_adjustment` (with its default threshold passed
explicitly by the caller): "N/A" on NaN, else Increasing / Declining /
Stable by comparison with the threshold. -/
def categorize_adjustment (adj_pct : Option ℚ) (threshold : ℚ) : String :=
  match adj_pct with
  | none => "N/A"
  | some p =>
    if threshold < p then "Increasing"
    else if p < -threshold then "Declining"
    else "Stable"

/-- Mirrors `adjustment_direction` (threshold passed explicitly): NaN or a
magnitude below the threshold gives "NO ADJUSTMENT", else the sign decides. -/
def adjustment_direction (adj_pct : Option ℚ) (threshold : ℚ) : String :=
  match adj_pct with
  | none => "NO ADJUSTMENT"
  | some p =>
    if |p| < threshold then "NO ADJUSTMENT"
    else if 0 < p then "UPWARD"
    else "DOWNWARD"

/-- Monthly bucket of the index series: one output row of
`build_monthly_index_price`.  `medianPrice` is an Option to reflect that the
pandas column is NaN-able (the builder always fills it). -/
structure Bucket where
  month : SDate
  salesCount : ℕ
  medianPrice : Option ℚ
  isThin : Bool
  rawIndex : ℚ
deriving DecidableEq, Repr

/-- Ordering of buckets by month, as `sort_values("Month")` orders rows. -/
def bucketLe (a b : Bucket) : Prop :=
  dateLe a.month b.month

instance : DecidableRel bucketLe := fun a b =>
  inferInstanceAs (Decidable (dateLe a.month b.month))

instance : IsTrans Bucket bucketLe :=
  ⟨fun _ _ _ h1 h2 => Trans.trans (r := dateLe) h1 h2⟩

instance : IsTotal Bucket bucketLe :=
  ⟨fun a b => IsTotal.total (r := dateLe) a.month b.month⟩

/-- Mirrors `lookup_index`: empty series gives ("no_index"); an exact
first-of-month match returns that bucket's column value ("exact"); otherwise
the most recent bucket at or before the target month is used ("prior"), and
if none exists the result is unavailable ("no_prior").  The triple is the
source's `(value, used_month, mode)` return. -/
def lookup_index (index_df : List Bucket) (target_date : SDate) (index_col : Bucket → ℚ) :
    Option ℚ × Option SDate × String :=
  if index_df = [] then (none, none, "no_index")
  else
    let m := month_start target_date
    match index_df.filter (fun b => decide (b.month = m)) with
    | row :: _ => (some (index_col row), some m, "exact")
    | [] =>
      let prior := List.insertionSort bucketLe
        (index_df.filter (fun b => decide (dateLe b.month m)))
      match prior.getLast? with
      | none => (none, none, "no_prior")
      | some lastRow => (some (index_col lastRow), some lastRow.month, "prior")

/-- Mirrors the `MktAdjPct` column construction (main, adjustment block):
`pct_change(eff, contract) * 100.0`, NaN propagating. -/
def mktAdjPctRaw (i_eff i_contract : Option ℚ) : Option ℚ :=
  (pct_change i_eff i_contract).map (fun v => v * 100)

/-- Mirrors the `MktAdj$` column construction: `SoldPrice * (MktAdjPct / 100)`,
NaN propagating. -/
def mktAdjDollarRaw (soldPrice : ℚ) (adjPct : Option ℚ) : Option ℚ :=
  adjPct.map (fun p => soldPrice * (p / 100))

/-- One row of the comparable-adjustment table assembled in `main`. -/
structure CompOut where
  contractIndex : Option ℚ
  effectiveIndex : Option ℚ
  daysFromEffective : ℤ
  appliedAdj : Bool
  mktAdjPct : Option ℚ
  mktAdjDollar : Option ℚ
  category : String
  direction : String
deriving DecidableEq, Repr

/-- The per-comparable computation of `main`'s adjustment block:
`Index_Contract` by lookup, `DaysFromEffective`, the `AppliedAdj` gate,
the raw percent/dollar adjustments, the forced zeroing of both columns on
rows with `AppliedAdj` false, and the two derived labels (whose thresholds
0.5 and 0.1 are the source functions' defaults). -/
def computeComparable (index_df : List Bucket) (index_col : Bucket → ℚ)
    (eff_index : Option ℚ) (eff_date : SDate) (no_adj_days : ℤ) (r : SaleRecord) : CompOut :=
  let ic := (lookup_index index_df r.contractDate index_col).1
  let days := days_between r.contractDate eff_date
  let applied : Bool := decide (no_adj_days ≤ days)
  let pct0 := mktAdjPctRaw eff_index ic
  let dollar0 := mktAdjDollarRaw r.soldPrice pct0
  let pctF := if applied then pct0 else some 0
  let dollarF := if applied then dollar0 else some 0
  { contractIndex := ic
    effectiveIndex := eff_index
    daysFromEffective := days
    appliedAdj := applied
    mktAdjPct := pctF
    mktAdjDollar := dollarF
    category := categorize_adjustment pctF (1/2)
    direction := adjustment_direction pctF (1/10) }

/-- Contract month of a record, the `Month` column of
`build_monthly_index_price`. -/
def month_of (r : SaleRecord) : SDate :=
  month_start r.contractDate

/-- The distinct contract months of the records, ascending — the group keys
produced by `groupby("Month") ... .sort_values("Month")`. -/
def monthsOf (recs : List SaleRecord) : List SDate :=
  List.insertionSort dateLe ((recs.map month_of).dedup)

/-- Prices of the records falling in month `m` (the group passed to the
`median` aggregator). -/
def pricesInMonth (recs : List SaleRecord) (m : SDate) : List ℚ :=
  (recs.filter (fun r => decide (month_of r = m))).map (fun r => r.soldPrice)

/-- One aggregated row of the builder before the thin flag and the raw index
are attached: month key, `SalesCount = size`, `MedianPrice = median`. -/
structure PreBucket where
  month : SDate
  salesCount : ℕ
  medianPrice : Option ℚ
deriving DecidableEq, Repr

/-- Mirrors the `groupby`/`agg`/`sort_values` block of
`build_monthly_index_price`. -/
def aggregateMonths (recs : List SaleRecord) : List PreBucket :=
  (monthsOf recs).map (fun m =>
    { month := m
      salesCount := (pricesInMonth recs m).length
      medianPrice := some (median (pricesInMonth recs m)) })

/-- One step of the chain-linking loop (lines filling `Index_Raw`): carry the
previous index forward when the previous median is NaN or zero or the current
median is NaN, otherwise multiply by the month-over-month median ratio. -/
def chainStep (prevRaw : ℚ) (prevMed curMed : Option ℚ) : ℚ :=
  match prevMed, curMed with
  | some p, some c => if p = 0 then prevRaw else prevRaw * (c / p)
  | _, _ => prevRaw

/-- The chain-linking loop from bucket 1 onward, threading the previous raw
index and previous median through the remaining medians. -/
def rawChain (prevRaw : ℚ) (prevMed : Option ℚ) : List (Option ℚ) → List ℚ
  | [] => []
  | c :: rest => chainStep prevRaw prevMed c :: rawChain (chainStep prevRaw prevMed c) c rest

/-- The full `Index_Raw` column: 1.00 for the first bucket, then the chain. -/
def rawIndexList : List (Option ℚ) → List ℚ
  | [] => []
  | m0 :: rest => 1 :: rawChain 1 m0 rest

/-- Mirrors `build_monthly_index_price(df, min_sales_per_month)`: aggregate
per month, flag thin months (`SalesCount < min_sales_per_month`), chain-link
the raw index. -/
def build_monthly_index_price (recs : List SaleRecord) (min_sales_per_month : ℕ) : List Bucket :=
  List.zipWith
    (fun (p : PreBucket) (ri : ℚ) =>
      { month := p.month
        salesCount := p.salesCount
        medianPrice := p.medianPrice
        isThin := decide (p.salesCount < min_sales_per_month)
        rawIndex := ri })
    (aggregateMonths recs)
    (rawIndexList ((aggregateMonths recs).map (fun p => p.medianPrice)))

/-- The slice of positions a centered fixed rolling window of size `w` covers
at position `i`: pandas' `FixedWindowIndexer.get_window_bounds` with
`center=True` uses offset `(w - 1) / 2`, window `[i+1+offset-w, i+offset]`
clipped to the column. -/
def windowSlice (l : List (Option ℚ)) (w i : ℕ) : List (Option ℚ) :=
  let offset := (w - 1) / 2
  let e := min l.length (i + 1 + offset)
  let s := i + 1 + offset - w
  (l.drop s).take (e - s)

/-- The non-NaN observations inside the window (pandas rolling aggregations
skip NaN and count only the present values against `min_periods`). -/
def windowObs (l : List (Option ℚ)) (w i : ℕ) : List ℚ :=
  (windowSlice l w i).filterMap id

/-- Mirrors the `Index_Smoothed` column: centered rolling mean of `Index_Raw`
with `min_periods=1`; a window with no observation yields NaN. -/
def rollingMeanCol (l : List (Option ℚ)) (w : ℕ) : List (Option ℚ) :=
  (List.range l.length).map (fun i =>
    let obs := windowObs l w i
    if obs.length < 1 then none else some (obs.sum / (obs.length : ℚ)))

/-- Mirrors the `Index_Std` column: centered rolling sample standard deviation
(`ddof=1`, pandas default) of `Index_Raw` with `min_periods=2`, with the
undefined (NaN) windows replaced by 0 via `.fillna(0)`. -/
noncomputable def rollingStdCol (l : List (Option ℚ)) (w : ℕ) : List ℝ :=
  (List.range l.length).map (fun i =>
    let obs := windowObs l w i
    if obs.length < 2 then 0
    else
      Real.sqrt
        (((obs.map (fun v : ℚ => ((v : ℝ) - ((obs.sum : ℚ) : ℝ) / (obs.length : ℝ)) ^ 2)).sum) /
          ((obs.length : ℝ) - 1)))

/-- The finite (non-NaN) points `(position, value)` of the raw-index column:
`x[np.isfinite(y)], y[np.isfinite(y)]`. -/
def finitePoints (l : List (Option ℚ)) : List (ℚ × ℚ) :=
  l.enum.filterMap (fun p => p.2.map (fun v => ((p.1 : ℚ), v)))

/-- Degree-1 least squares fit as `np.polyfit(x, y, 1)` computes it on a
nonsingular problem: `(slope, intercept)` from the normal equations. -/
def polyfit1 (pts : List (ℚ × ℚ)) : ℚ × ℚ :=
  let n : ℚ := pts.length
  let sx := (pts.map (fun p => p.1)).sum
  let sy := (pts.map (fun p => p.2)).sum
  let sxx := (pts.map (fun p => p.1 * p.1)).sum
  let sxy := (pts.map (fun p => p.1 * p.2)).sum
  let det := n * sxx - sx * sx
  ((n * sxy - sx * sy) / det, (sxx * sy - sx * sxy) / det)

/-- Mirrors the `Index_Regression` column: when the series has at least two
rows and at least two finite raw-index points, the least-squares line over
bucket positions evaluated at every position; otherwise a copy of the
smoothed column. -/
def regressionCol (l : List (Option ℚ)) (w : ℕ) : List (Option ℚ) :=
  if 2 ≤ l.length ∧ 2 ≤ (finitePoints l).length then
    (List.range l.length).map (fun i : ℕ =>
      some ((polyfit1 (finitePoints l)).1 * (i : ℚ) + (polyfit1 (finitePoints l)).2))
  else rollingMeanCol l w

/-- Mirrors `add_smoothed_and_regression(index_df, smooth_window)` on the
`Index_Raw` column: the window is clamped by `w = max(2, int(smooth_window))`
and the three derived columns are returned. -/
noncomputable def add_smoothed_and_regression (l : List (Option ℚ)) (smooth_window : ℤ) :
    List (Option ℚ) × List ℝ × List (Option ℚ) :=
  (rollingMeanCol l (max 2 smooth_window).toNat,
   rollingStdCol l (max 2 smooth_window).toNat,
   regressionCol l (max 2 smooth_window).toNat)

/-- Earliest contract day number among the records:
`t0 = pd.to_datetime(out["ContractDate"]).min()`. -/
def minDays : List SaleRecord → ℤ
  | [] => 0
  | r :: rest => List.foldl min (toDays r.contractDate) (rest.map (fun s => toDays s.contractDate))

/-- Elapsed whole days from the earliest record, the regressor `x1` of
`cooks_distance_time_regression`. -/
def xsOf (recs : List SaleRecord) : List ℤ :=
  recs.map (fun r => toDays r.contractDate - minDays recs)

/-- The regressand `y = np.log(np.maximum(1.0, SoldPrice))`. -/
noncomputable def ysOf (recs : List SaleRecord) : List ℝ :=
  recs.map (fun r => Real.log (max 1 ((r.soldPrice : ℝ))))

/-- Sum of the regressors (entry of `X.T @ X`). -/
def sxOf (recs : List SaleRecord) : ℤ :=
  (xsOf recs).sum

/-- Sum of squared regressors (entry of `X.T @ X`). -/
def sxxOf (recs : List SaleRecord) : ℤ :=
  ((xsOf recs).map (fun t => t * t)).sum

/-- Sum of the regressand (entry of `X.T @ y`). -/
noncomputable def syOf (recs : List SaleRecord) : ℝ :=
  (ysOf recs).sum

/-- Sum of x·y products (entry of `X.T @ y`). -/
noncomputable def sxyOf (recs : List SaleRecord) : ℝ :=
  (List.zipWith (fun (t : ℤ) (y : ℝ) => (t : ℝ) * y) (xsOf recs) (ysOf recs)).sum

/-- Determinant of the 2x2 normal-equations matrix `X.T @ X`. -/
def detOf (recs : List SaleRecord) : ℤ :=
  (recs.length : ℤ) * sxxOf recs - sxOf recs * sxOf recs

/-- Trace of `X.T @ X`, used by the pseudo-inverse fallback. -/
def trOf (recs : List SaleRecord) : ℤ :=
  (recs.length : ℤ) + sxxOf recs

/-- Entry (0,0) of `XtX_inv`: the exact inverse when `XtX` is invertible,
otherwise the Moore-Penrose pseudo-inverse (`np.linalg.pinv` fallback on
`LinAlgError`), which for the singular symmetric PSD rank-one `XtX` is
`XtX / trace(XtX)^2`. -/
noncomputable def inv00 (recs : List SaleRecord) : ℝ :=
  if detOf recs ≠ 0 then (sxxOf recs : ℝ) / (detOf recs : ℝ)
  else (recs.length : ℝ) / ((trOf recs : ℝ)) ^ 2

/-- Entry (0,1) = (1,0) of `XtX_inv` (see `inv00`). -/
noncomputable def inv01 (recs : List SaleRecord) : ℝ :=
  if detOf recs ≠ 0 then -(sxOf recs : ℝ) / (detOf recs : ℝ)
  else (sxOf recs : ℝ) / ((trOf recs : ℝ)) ^ 2

/-- Entry (1,1) of `XtX_inv` (see `inv00`). -/
noncomputable def inv11 (recs : List SaleRecord) : ℝ :=
  if detOf recs ≠ 0 then (recs.length : ℝ) / (detOf recs : ℝ)
  else (sxxOf recs : ℝ) / ((trOf recs : ℝ)) ^ 2

/-- Intercept of `beta = XtX_inv @ (X.T @ y)`. -/
noncomputable def beta0 (recs : List SaleRecord) : ℝ :=
  inv00 recs * syOf recs + inv01 recs * sxyOf recs

/-- Slope of `beta = XtX_inv @ (X.T @ y)`. -/
noncomputable def beta1 (recs : List SaleRecord) : ℝ :=
  inv01 recs * syOf recs + inv11 recs * sxyOf recs

/-- The residual vector `resid = y - X @ beta`. -/
noncomputable def residOf (recs : List SaleRecord) : List ℝ :=
  List.zipWith (fun (t : ℤ) (y : ℝ) => y - (beta0 recs + beta1 recs * (t : ℝ)))
    (xsOf recs) (ysOf recs)

/-- The hat-matrix diagonal `H = np.sum((X @ XtX_inv) * X, axis=1)`, written
out for the symmetric 2x2 inverse. -/
noncomputable def leverageOf (recs : List SaleRecord) : List ℝ :=
  (xsOf recs).map (fun t : ℤ =>
    inv00 recs + 2 * inv01 recs * (t : ℝ) + inv11 recs * (t : ℝ) ^ 2)

/-- Mean squared error `mse = np.sum(resid ** 2) / max(1, (n - p))`, `p = 2`. -/
noncomputable def mseOf (recs : List SaleRecord) : ℝ :=
  ((residOf recs).map (fun r => r ^ 2)).sum / ((max 1 (recs.length - 2) : ℕ) : ℝ)

/-- The numerical guard `eps = 1e-12` of the Cook's distance computation. -/
noncomputable def epsReg : ℝ :=
  1 / 10 ^ 12

/-- The Cook's-distance column
`cooks = (resid**2 / (p * (mse + eps))) * (H / (np.maximum(eps, (1 - H))**2))`. -/
noncomputable def cooksOf (recs : List SaleRecord) : List ℝ :=
  List.zipWith
    (fun r h => (r ^ 2 / (2 * (mseOf recs + epsReg))) * (h / (max epsReg (1 - h)) ^ 2))
    (residOf recs) (leverageOf recs)

/-- Mean of the residuals (inside `np.std`). -/
noncomputable def residMean (recs : List SaleRecord) : ℝ :=
  (residOf recs).sum / (recs.length : ℝ)

/-- Population standard deviation `np.std(resid)` of the residuals. -/
noncomputable def residStd (recs : List SaleRecord) : ℝ :=
  Real.sqrt (((residOf recs).map (fun r => (r - residMean recs) ^ 2)).sum / (recs.length : ℝ))

/-- Mirrors `resid_std = np.std(resid) if np.std(resid) > 0 else 1.0`. -/
noncomputable def residStdFallback (recs : List SaleRecord) : ℝ :=
  if 0 < residStd recs then residStd recs else 1

/-- Residual of record `i`. -/
noncomputable def residAt (recs : List SaleRecord) (i : ℕ) : ℝ :=
  (residOf recs).getD i 0

/-- Studentized residual magnitude `np.abs(resid) / resid_std` of record `i`. -/
noncomputable def studentizedAt (recs : List SaleRecord) (i : ℕ) : ℝ :=
  |residAt recs i| / residStdFallback recs

/-- Cook's distance of record `i`. -/
noncomputable def cooksAt (recs : List SaleRecord) (i : ℕ) : ℝ :=
  (cooksOf recs).getD i 0

/-- The `HighLeverage` column of `cooks_distance_time_regression` (which, per
the source comments, actually flags price-deviation outliers): `False` for
every row when fewer than 6 valid records exist, else `studentized > 2.0`. -/
def highLeverageFlag (recs : List SaleRecord) (i : ℕ) : Prop :=
  6 ≤ recs.length ∧ 2 < studentizedAt recs i

/-- The `HighCooksD` column: `False` for every row when fewer than 6 valid
records exist, else `CooksD > 4 / n`. -/
def highCooksDFlag (recs : List SaleRecord) (i : ℕ) : Prop :=
  6 ≤ recs.length ∧ 4 / (recs.length : ℝ) < cooksAt recs i

/-- Concrete two-sale input (Scenario A shape) used to witness the builder
theorems. -/
def c1recs : List SaleRecord :=
  [⟨⟨2024, 1, 5⟩, 300000⟩, ⟨⟨2024, 2, 7⟩, 310000⟩]

/-- Concrete two-bucket index series used to witness the lookup theorem. -/
def c2series : List Bucket :=
  [⟨⟨2024, 1, 1⟩, 3, some 100, false, 1⟩, ⟨⟨2024, 3, 1⟩, 4, some 110, false, 11/10⟩]

/-- Six records on consecutive days with constant price 1 (so the log-price
series is identically 0), used to witness the regression-flag theorems. -/
def c5recs : List SaleRecord :=
  [⟨⟨2024, 1, 1⟩, 1⟩, ⟨⟨2024, 1, 2⟩, 1⟩, ⟨⟨2024, 1, 3⟩, 1⟩,
   ⟨⟨2024, 1, 4⟩, 1⟩, ⟨⟨2024, 1, 5⟩, 1⟩, ⟨⟨2024, 1, 6⟩, 1⟩]

/-- Six records on consecutive days whose prices lie exactly on the linear
trend `price = 1/2 + days/8`: the first five prices are at most 1, so their
log-regressand is 0, while the last is `log (9/8)`.  This input refutes the
claim that an exactly linear price trend is never flagged. -/
def c6recs : List SaleRecord :=
  [⟨⟨2024, 1, 1⟩, 1/2⟩, ⟨⟨2024, 1, 2⟩, 5/8⟩, ⟨⟨2024, 1, 3⟩, 3/4⟩,
   ⟨⟨2024, 1, 4⟩, 7/8⟩, ⟨⟨2024, 1, 5⟩, 1⟩, ⟨⟨2024, 1, 6⟩, 9/8⟩]

/-- C3: for every comparable, `adjustmentApplied` holds exactly when the
absolute whole-day distance between contract date and effective date is at
least `noAdjustmentDays`, and a comparable inside the window has both the
percent and the dollar adjustment forced to exactly 0. -/
theorem C3_adjustment_gate (index_df : List Bucket) (index_col : Bucket → ℚ)
    (eff_index : Option ℚ) (eff_date : SDate) (no_adj_days : ℤ) (r : SaleRecord) :
    ((computeComparable index_df index_col eff_index eff_date no_adj_days r).appliedAdj = true ↔
      no_adj_days ≤
        (computeComparable index_df index_col eff_index eff_date no_adj_days r).daysFromEffective) ∧
    (computeComparable index_df index_col eff_index eff_date no_adj_days r).daysFromEffective =
      |toDays r.contractDate - toDays eff_date| ∧
    ((computeComparable index_df index_col eff_index eff_date no_adj_days r).appliedAdj = false →
      (computeComparable index_df index_col eff_index eff_date no_adj_days r).mktAdjPct = some 0 ∧
      (computeComparable index_df index_col eff_index eff_date no_adj_days r).mktAdjDollar =
        some 0) := by
  refine ⟨by simp [computeComparable], rfl, ?_⟩
  intro h
  have hn : ¬ (no_adj_days ≤ days_between r.contractDate eff_date) := by
    simpa [computeComparable] using h
  constructor <;> simp [computeComparable, hn]

/-- Witness for C3 at a concrete comparable 9 days from the effective date
with a 30-day no-adjustment window. -/
theorem C3_adjustment_gate_witness :
    (computeComparable [] (fun b => b.rawIndex) (some 1) ⟨2024, 1, 10⟩ 30
        ⟨⟨2024, 1, 1⟩, 100000⟩).appliedAdj = false ∧
    ((computeComparable [] (fun b => b.rawIndex) (some 1) ⟨2024, 1, 10⟩ 30
        ⟨⟨2024, 1, 1⟩, 100000⟩).mktAdjPct = some 0 ∧
      (computeComparable [] (fun b => b.rawIndex) (some 1) ⟨2024, 1, 10⟩ 30
        ⟨⟨2024, 1, 1⟩, 100000⟩).mktAdjDollar = some 0) :=
  ⟨by decide,
   (C3_adjustment_gate [] (fun b => b.rawIndex) (some 1) ⟨2024, 1, 10⟩ 30
      ⟨⟨2024, 1, 1⟩, 100000⟩).2.2 (by decide)⟩

/-- C4: in the adjustment computation (before the no-adjustment forcing), an
unavailable effective or contract index, or a contract index of exactly zero,
makes the percent adjustment undefined (NaN, not zero) and the dollar
adjustment with it; otherwise the two closed-form formulas apply. -/
theorem C4_undefined_adjustment (i_eff i_contract : Option ℚ) (soldPrice : ℚ) :
    ((i_eff = none ∨ i_contract = none ∨ i_contract = some 0) →
      mktAdjPctRaw i_eff i_contract = none ∧
      mktAdjDollarRaw soldPrice (mktAdjPctRaw i_eff i_contract) = none) ∧
    (∀ e c, i_eff = some e → i_contract = some c → c ≠ 0 →
      mktAdjPctRaw i_eff i_contract = some ((e / c - 1) * 100) ∧
      mktAdjDollarRaw soldPrice (mktAdjPctRaw i_eff i_contract) =
        some (soldPrice * ((e / c - 1) * 100 / 100))) := by
  constructor
  · rintro (rfl | rfl | rfl)
    · cases i_contract <;> simp [mktAdjPctRaw, mktAdjDollarRaw, pct_change]
    · cases i_eff <;> simp [mktAdjPctRaw, mktAdjDollarRaw, pct_change]
    · cases i_eff <;> simp [mktAdjPctRaw, mktAdjDollarRaw, pct_change]
  · rintro e c rfl rfl hc
    simp [mktAdjPctRaw, mktAdjDollarRaw, pct_change, hc, mul_div_assoc]

/-- Witness for C4: an unavailable effective index yields NaN, and a
concrete defined pair (1.05 vs 1.02) yields the formula value. -/
theorem C4_undefined_adjustment_witness :
    (mktAdjPctRaw none (some 1) = none ∧
      mktAdjDollarRaw 400000 (mktAdjPctRaw none (some 1)) = none) ∧
    mktAdjPctRaw (some (21/20)) (some (51/50)) = some ((21/20 / (51/50) - 1) * 100) :=
  ⟨(C4_undefined_adjustment none (some 1) 400000).1 (Or.inl rfl),
   ((C4_undefined_adjustment (some (21/20)) (some (51/50)) 400000).2 (21/20) (51/50) rfl rfl
      (by norm_num)).1⟩

/-- C10: the forced zeroing of a comparable inside the no-adjustment window
takes precedence over the undefined-adjustment rule: even when the lookup
failed or the contract index is zero, such a comparable reports exactly 0
for both adjustments, with labels "Stable" and "NO ADJUSTMENT". -/
theorem C10_gate_overrides_na (index_df : List Bucket) (index_col : Bucket → ℚ)
    (eff_index : Option ℚ) (eff_date : SDate) (no_adj_days : ℤ) (r : SaleRecord)
    (h : (computeComparable index_df index_col eff_index eff_date no_adj_days r).appliedAdj
      = false)
    (_hna : (computeComparable index_df index_col eff_index eff_date no_adj_days r).contractIndex
        = none ∨
      (computeComparable index_df index_col eff_index eff_date no_adj_days r).effectiveIndex
        = none ∨
      (computeComparable index_df index_col eff_index eff_date no_adj_days r).contractIndex
        = some 0) :
    (computeComparable index_df index_col eff_index eff_date no_adj_days r).mktAdjPct = some 0 ∧
    (computeComparable index_df index_col eff_index eff_date no_adj_days r).mktAdjDollar
      = some 0 ∧
    (computeComparable index_df index_col eff_index eff_date no_adj_days r).category
      = "Stable" ∧
    (computeComparable index_df index_col eff_index eff_date no_adj_days r).direction
      = "NO ADJUSTMENT" := by
  have hn : ¬ (no_adj_days ≤ days_between r.contractDate eff_date) := by
    simpa [computeComparable] using h
  refine ⟨?_, ?_, ?_, ?_⟩ <;>
    norm_num [computeComparable, hn, categorize_adjustment, adjustment_direction]

/-- Witness for C10: an empty index series (contract lookup unavailable) and
a comparable 9 days from the effective date with a 30-day window. -/
theorem C10_gate_overrides_na_witness :
    (computeComparable [] (fun b => b.rawIndex) none ⟨2024, 1, 10⟩ 30
        ⟨⟨2024, 1, 1⟩, 100000⟩).mktAdjPct = some 0 ∧
    (computeComparable [] (fun b => b.rawIndex) none ⟨2024, 1, 10⟩ 30
        ⟨⟨2024, 1, 1⟩, 100000⟩).mktAdjDollar = some 0 ∧
    (computeComparable [] (fun b => b.rawIndex) none ⟨2024, 1, 10⟩ 30
        ⟨⟨2024, 1, 1⟩, 100000⟩).category = "Stable" ∧
    (computeComparable [] (fun b => b.rawIndex) none ⟨2024, 1, 10⟩ 30
        ⟨⟨2024, 1, 1⟩, 100000⟩).direction = "NO ADJUSTMENT" :=
  C10_gate_overrides_na [] (fun b => b.rawIndex) none ⟨2024, 1, 10⟩ 30
    ⟨⟨2024, 1, 1⟩, 100000⟩ (by decide) (Or.inl (by decide))

/-- Sorting commutes with scaling by a positive constant. -/
theorem sortQ_map_mul (c : ℚ) (hc : 0 < c) (l : List ℚ) :
    sortQ (l.map (fun p => c * p)) = (sortQ l).map (fun p => c * p) := by
  apply List.eq_of_perm_of_sorted (r := fun a b : ℚ => a ≤ b)
  · exact (List.perm_insertionSort _ _).trans
      (((List.perm_insertionSort (fun a b : ℚ => a ≤ b) l).map _).symm)
  · exact List.sorted_insertionSort _ _
  · exact List.Pairwise.map _ (fun a b h => mul_le_mul_of_nonneg_left h hc.le)
      (List.sorted_insertionSort (fun a b : ℚ => a ≤ b) l)

/-- Positional access commutes with scaling when the default scales too. -/
theorem getD_map_mul (c : ℚ) (l : List ℚ) (i : ℕ) (d : ℚ) :
    (l.map (fun p => c * p)).getD i (c * d) = c * l.getD i d := by
  induction l generalizing i with
  | nil => simp
  | cons a t ih => cases i <;> simp [ih]

/-- Positional access with default 0 commutes with scaling. -/
theorem getD_map_mul0 (c : ℚ) (l : List ℚ) (i : ℕ) :
    (l.map (fun p => c * p)).getD i 0 = c * l.getD i 0 := by
  have h := getD_map_mul c l i 0
  simpa using h

/-- The interpolated quantile scales with the data. -/
theorem quantileQ_map_mul (c : ℚ) (hc : 0 < c) (l : List ℚ) (q : ℚ) :
    quantileQ (l.map (fun p => c * p)) q = c * quantileQ l q := by
  simp only [quantileQ, List.length_map, sortQ_map_mul c hc]
  rw [getD_map_mul0 c (sortQ l)]
  rw [getD_map_mul c (sortQ l)]
  ring

/-- C7: the distribution-rule (IQR) outlier flags are invariant, record by
record, under multiplying every price by the same positive constant. -/
theorem C7_iqr_scale_invariance (prices : List ℚ) (k c : ℚ) (_hk : 0 < k) (hc : 0 < c) :
    compute_iqr_flags_cached (prices.map (fun p => c * p)) k =
      compute_iqr_flags_cached prices k := by
  simp only [compute_iqr_flags_cached, quantileQ_map_mul c hc, List.map_map]
  congr 1
  funext p
  simp only [Function.comp_apply]
  have hA : c * quantileQ prices (1/4) -
      k * (c * quantileQ prices (3/4) - c * quantileQ prices (1/4)) =
      c * (quantileQ prices (1/4) -
        k * (quantileQ prices (3/4) - quantileQ prices (1/4))) := by ring
  have hB : c * quantileQ prices (3/4) +
      k * (c * quantileQ prices (3/4) - c * quantileQ prices (1/4)) =
      c * (quantileQ prices (3/4) +
        k * (quantileQ prices (3/4) - quantileQ prices (1/4))) := by ring
  have e1 : decide (c * p < c * quantileQ prices (1/4) -
        k * (c * quantileQ prices (3/4) - c * quantileQ prices (1/4))) =
      decide (p < quantileQ prices (1/4) -
        k * (quantileQ prices (3/4) - quantileQ prices (1/4))) := by
    apply decide_eq_decide.mpr
    rw [hA]
    constructor <;> intro hx <;> nlinarith
  have e2 : decide (c * quantileQ prices (3/4) +
        k * (c * quantileQ prices (3/4) - c * quantileQ prices (1/4)) < c * p) =
      decide (quantileQ prices (3/4) +
        k * (quantileQ prices (3/4) - quantileQ prices (1/4)) < p) := by
    apply decide_eq_decide.mpr
    rw [hB]
    constructor <;> intro hx <;> nlinarith
  rw [e1, e2]

/-- Witness for C7 at a concrete price list, multiplier 3/2 and scale 2. -/
theorem C7_iqr_scale_invariance_witness :
    compute_iqr_flags_cached ([100, 200, 300, 10000].map (fun p => 2 * p)) (3/2) =
      compute_iqr_flags_cached [100, 200, 300, 10000] (3/2) :=
  C7_iqr_scale_invariance [100, 200, 300, 10000] (3/2) 2 (by norm_num) (by norm_num)

/-- Mapping a function over a zipWith fuses into the zipWith. -/
theorem map_zipWith_fuse {α β γ δ : Type} (f : γ → δ) (g : α → β → γ) :
    ∀ (l₁ : List α) (l₂ : List β),
      (List.zipWith g l₁ l₂).map f = List.zipWith (fun a b => f (g a b)) l₁ l₂
  | [], _ => by simp
  | _ :: _, [] => by simp
  | a :: t₁, b :: t₂ => by
    simp only [List.zipWith_cons_cons, List.map_cons]
    rw [map_zipWith_fuse f g t₁ t₂]

/-- A defined entry of a zipWith comes from defined entries of both lists. -/
theorem zipWith_getElem?_inv {α β γ : Type} (g : α → β → γ) :
    ∀ (l₁ : List α) (l₂ : List β) (i : ℕ) (x : γ),
      (List.zipWith g l₁ l₂)[i]? = some x →
      ∃ a b, l₁[i]? = some a ∧ l₂[i]? = some b ∧ x = g a b
  | [], l₂, i, x => by simp
  | a :: t₁, [], i, x => by simp
  | a :: t₁, b :: t₂, 0, x => by
    simp only [List.zipWith_cons_cons, List.getElem?_cons_zero, Option.some.injEq]
    intro h
    exact ⟨a, b, rfl, rfl, h.symm⟩
  | a :: t₁, b :: t₂, (i+1), x => by
    simp only [List.zipWith_cons_cons, List.getElem?_cons_succ]
    exact zipWith_getElem?_inv g t₁ t₂ i x

/-- Zipping that only keeps the first component is a map, when the second
list is at least as long. -/
theorem zipWith_fst_map {α β γ : Type} (f : α → γ) :
    ∀ (l₁ : List α) (l₂ : List β), l₁.length ≤ l₂.length →
      List.zipWith (fun a _ => f a) l₁ l₂ = l₁.map f
  | [], _, _ => by simp
  | a :: t₁, [], h => by simp at h
  | a :: t₁, b :: t₂, h => by
    simp only [List.zipWith_cons_cons, List.map_cons]
    rw [zipWith_fst_map f t₁ t₂ (by simpa using h)]

/-- The chain loop produces one index value per median. -/
theorem rawChain_length :
    ∀ (l : List (Option ℚ)) (r0 : ℚ) (m0 : Option ℚ), (rawChain r0 m0 l).length = l.length
  | [], _, _ => rfl
  | c :: rest, r0, m0 => by simp [rawChain, rawChain_length rest]

/-- The raw-index column has one value per bucket. -/
theorem rawIndexList_length (l : List (Option ℚ)) : (rawIndexList l).length = l.length := by
  cases l with
  | nil => rfl
  | cons m0 rest => simp [rawIndexList, rawChain_length]

/-- The first value the chain loop produces is one step from its seed. -/
theorem rawChain_head :
    ∀ (rest : List (Option ℚ)) (r0 : ℚ) (m0 : Option ℚ) (v : ℚ) (m : Option ℚ),
      (rawChain r0 m0 rest)[0]? = some v → rest[0]? = some m → v = chainStep r0 m0 m
  | [], _, _, _, _ => by simp [rawChain]
  | c :: rest, r0, m0, v, m => by
    simp only [rawChain, List.getElem?_cons_zero, Option.some.injEq]
    intro h1 h2
    rw [← h1, h2]

/-- Consecutive values of the chain loop are related by one chain step. -/
theorem rawChain_step_rel :
    ∀ (rest : List (Option ℚ)) (r0 : ℚ) (m0 : Option ℚ) (i : ℕ)
      (ri ri' : ℚ) (mi mi' : Option ℚ),
      (rawChain r0 m0 rest)[i]? = some ri → (rawChain r0 m0 rest)[i+1]? = some ri' →
      rest[i]? = some mi → rest[i+1]? = some mi' →
      ri' = chainStep ri mi mi'
  | [], _, _, _, _, _, _, _ => by simp [rawChain]
  | c :: rest, r0, m0, 0, ri, ri', mi, mi' => by
    simp only [rawChain, List.getElem?_cons_zero, List.getElem?_cons_succ, Option.some.injEq]
    intro h1 h2 h3 h4
    have h5 := rawChain_head rest (chainStep r0 m0 c) c ri' mi' h2 h4
    rw [h5, h1, h3]
  | c :: rest, r0, m0, (i+1), ri, ri', mi, mi' => by
    simp only [rawChain, List.getElem?_cons_succ]
    exact rawChain_step_rel rest (chainStep r0 m0 c) c i ri ri' mi mi'

/-- A nonempty raw-index column starts at exactly 1. -/
theorem rawIndexList_head (l : List (Option ℚ)) (hne : l ≠ []) :
    (rawIndexList l)[0]? = some 1 := by
  cases l with
  | nil => exact absurd rfl hne
  | cons m0 rest => simp [rawIndexList]

/-- Consecutive values of the raw-index column are related by one chain
step on the corresponding medians. -/
theorem rawIndexList_step (l : List (Option ℚ)) (i : ℕ) (ri ri' : ℚ) (mi mi' : Option ℚ)
    (h1 : (rawIndexList l)[i]? = some ri) (h2 : (rawIndexList l)[i+1]? = some ri')
    (h3 : l[i]? = some mi) (h4 : l[i+1]? = some mi') :
    ri' = chainStep ri mi mi' := by
  cases l with
  | nil => simp [rawIndexList] at h1
  | cons m0 rest =>
    cases i with
    | zero =>
      simp only [rawIndexList, List.getElem?_cons_zero, List.getElem?_cons_succ,
        Option.some.injEq] at h1 h2 h3 h4
      have h5 := rawChain_head rest 1 m0 ri' mi' h2 h4
      rw [h5, ← h1, ← h3]
    | succ j =>
      simp only [rawIndexList, List.getElem?_cons_succ] at h1 h2 h3 h4
      exact rawChain_step_rel rest 1 m0 j ri ri' mi mi' h1 h2 h3 h4

/-- The sorted dedup'd month keys are strictly increasing. -/
theorem monthsOf_sorted (recs : List SaleRecord) : (monthsOf recs).Pairwise dateLt := by
  have hs : List.Pairwise dateLe (monthsOf recs) := List.sorted_insertionSort dateLe _
  have hn : (monthsOf recs).Nodup :=
    ((List.perm_insertionSort dateLe _).nodup_iff).mpr (List.nodup_dedup _)
  exact (hs.and hn).imp (fun h => dateLt_of_le_of_ne h.1 h.2)

/-- The aggregated rows carry exactly the sorted month keys. -/
theorem aggregateMonths_months (recs : List SaleRecord) :
    (aggregateMonths recs).map (fun p => p.month) = monthsOf recs := by
  simp only [aggregateMonths, List.map_map]
  exact List.map_id (monthsOf recs)

/-- A nonempty record set has at least one month key. -/
theorem monthsOf_ne_nil (recs : List SaleRecord) (hne : recs ≠ []) : monthsOf recs ≠ [] := by
  cases recs with
  | nil => exact absurd rfl hne
  | cons r rest =>
    intro h
    have hmem : month_of r ∈ monthsOf (r :: rest) := by
      unfold monthsOf
      simp only [List.mem_insertionSort, List.mem_dedup]
      exact List.mem_map_of_mem month_of (List.mem_cons_self r rest)
    rw [h] at hmem
    exact (List.not_mem_nil _) hmem

/-- The months column of the built index equals the sorted month keys. -/
theorem build_months (recs : List SaleRecord) (k : ℕ) :
    (build_monthly_index_price recs k).map (fun b => b.month) = monthsOf recs := by
  rw [build_monthly_index_price, map_zipWith_fuse]
  have hlen : (aggregateMonths recs).length ≤
      (rawIndexList ((aggregateMonths recs).map (fun p => p.medianPrice))).length := by
    simp [rawIndexList_length]
  exact (zipWith_fst_map (fun p => p.month) _ _ hlen).trans (aggregateMonths_months recs)

/-- C8: the monthly index series built with any two values of
`minSalesPerMonth` have identical months, sales counts, median prices and
raw index values bucket by bucket; the parameter can only change `isThin`. -/
theorem C8_minSales_controls_isThin_only (recs : List SaleRecord) (k₁ k₂ : ℕ) :
    (build_monthly_index_price recs k₁).map (fun b => b.month) =
      (build_monthly_index_price recs k₂).map (fun b => b.month) ∧
    (build_monthly_index_price recs k₁).map (fun b => b.salesCount) =
      (build_monthly_index_price recs k₂).map (fun b => b.salesCount) ∧
    (build_monthly_index_price recs k₁).map (fun b => b.medianPrice) =
      (build_monthly_index_price recs k₂).map (fun b => b.medianPrice) ∧
    (build_monthly_index_price recs k₁).map (fun b => b.rawIndex) =
      (build_monthly_index_price recs k₂).map (fun b => b.rawIndex) := by
  refine ⟨?_, ?_, ?_, ?_⟩ <;>
    simp only [build_monthly_index_price, map_zipWith_fuse]

/-- C1: on a nonempty record set the builder produces buckets strictly
ascending in month, the first raw index is exactly 1, and each later raw
index carries the previous value forward when the previous median is
missing or zero or the current median is missing, and otherwise multiplies
the previous value by the median ratio. -/
theorem C1_monthly_chain_index (recs : List SaleRecord) (min_sales : ℕ) (hne : recs ≠ []) :
    (build_monthly_index_price recs min_sales).Pairwise (fun a b => dateLt a.month b.month) ∧
    (∃ b, (build_monthly_index_price recs min_sales).head? = some b ∧ b.rawIndex = 1) ∧
    (∀ i prev cur, (build_monthly_index_price recs min_sales)[i]? = some prev →
      (build_monthly_index_price recs min_sales)[i+1]? = some cur →
      ((prev.medianPrice = none ∨ prev.medianPrice = some 0 ∨ cur.medianPrice = none) →
        cur.rawIndex = prev.rawIndex) ∧
      (∀ p c, prev.medianPrice = some p → p ≠ 0 → cur.medianPrice = some c →
        cur.rawIndex = prev.rawIndex * (c / p))) := by
  refine ⟨?_, ?_, ?_⟩
  · have hm : ((build_monthly_index_price recs min_sales).map (fun b => b.month)).Pairwise
        dateLt := by
      rw [build_months]
      exact monthsOf_sorted recs
    exact (List.pairwise_map).mp hm
  · rcases hpre : aggregateMonths recs with _ | ⟨p, pt⟩
    · exfalso
      have h0 : monthsOf recs = [] := by
        have h1 := hpre
        unfold aggregateMonths at h1
        exact List.map_eq_nil_iff.mp h1
      exact monthsOf_ne_nil recs hne h0
    · refine ⟨⟨p.month, p.salesCount, p.medianPrice, decide (p.salesCount < min_sales), 1⟩,
        ?_, rfl⟩
      rw [build_monthly_index_price, hpre]
      rfl
  · intro i prev cur h1 h2
    rw [build_monthly_index_price] at h1 h2
    obtain ⟨p, ri, hp, hri, rfl⟩ := zipWith_getElem?_inv _ _ _ _ _ h1
    obtain ⟨p', ri', hp', hri', rfl⟩ := zipWith_getElem?_inv _ _ _ _ _ h2
    have hmi : ((aggregateMonths recs).map (fun q => q.medianPrice))[i]? =
        some p.medianPrice := by
      rw [List.getElem?_map, hp]
      rfl
    have hmi' : ((aggregateMonths recs).map (fun q => q.medianPrice))[i+1]? =
        some p'.medianPrice := by
      rw [List.getElem?_map, hp']
      rfl
    have hstep : ri' = chainStep ri p.medianPrice p'.medianPrice :=
      rawIndexList_step _ i ri ri' _ _ hri hri' hmi hmi'
    constructor
    · rintro (hc | hc | hc) <;> simp only at hc ⊢ <;> rw [hstep, hc] <;> simp [chainStep]
      · cases hm' : p'.medianPrice <;> simp
    · intro pv cv hpv hz hcv
      simp only at hpv hcv ⊢
      rw [hstep, hpv, hcv]
      simp [chainStep, hz]

/-- Witness for C1 at a concrete two-month record set. -/
theorem C1_monthly_chain_index_witness :
    ∃ b, (build_monthly_index_price c1recs 1).head? = some b ∧ b.rawIndex = 1 :=
  (C1_monthly_chain_index c1recs 1 (by decide)).2.1

/-- Strict date order is irreflexive. -/
theorem dateLt_irrefl (a : SDate) : ¬ dateLt a a := by
  unfold dateLt; omega

/-- Non-strict date order is reflexive. -/
theorem dateLe_refl (a : SDate) : dateLe a a := by
  unfold dateLe; omega

/-- In a series with strictly increasing months, filtering for one month
keeps exactly the (unique) bucket carrying it. -/
theorem filter_month_eq (l : List Bucket) (m : SDate)
    (hl : l.Pairwise (fun a b => dateLt a.month b.month)) (b : Bucket)
    (hb : b ∈ l) (hm : b.month = m) :
    l.filter (fun x => decide (x.month = m)) = [b] := by
  induction l with
  | nil => cases hb
  | cons a t ih =>
    rcases List.mem_cons.mp hb with rfl | hbt
    · have hta : ∀ x ∈ t, dateLt b.month x.month :=
        fun x hx => (List.pairwise_cons.mp hl).1 x hx
      have htf : t.filter (fun x => decide (x.month = m)) = [] := by
        apply List.filter_eq_nil_iff.mpr
        intro x hx
        simp only [decide_eq_true_eq]
        intro hxm
        have hlt := hta x hx
        rw [hm, hxm] at hlt
        exact dateLt_irrefl m hlt
      simp [List.filter_cons, hm, htf]
    · have hab : dateLt a.month b.month := (List.pairwise_cons.mp hl).1 b hbt
      have ham : ¬ (a.month = m) := by
        intro h
        rw [h, hm] at hab
        exact dateLt_irrefl m hab
      simp only [List.filter_cons, decide_eq_true_eq, ham, if_false]
      exact ih (List.pairwise_cons.mp hl).2 hbt

/-- In a list of buckets with strictly increasing months, the last element
is the one every month is at most. -/
theorem getLast?_of_max :
    ∀ (l : List Bucket), l.Pairwise (fun a b => dateLt a.month b.month) →
      ∀ (b : Bucket), b ∈ l → (∀ x ∈ l, dateLe x.month b.month) → l.getLast? = some b
  | [], _, b, hb, _ => by cases hb
  | [a], _, b, hb, _ => by
    rcases List.mem_singleton.mp hb with rfl
    rfl
  | a :: c :: t, hl, b, hb, hmax => by
    have hac : dateLt a.month c.month :=
      (List.pairwise_cons.mp hl).1 c (List.mem_cons_self c t)
    have hb' : b ∈ c :: t := by
      rcases List.mem_cons.mp hb with rfl | h
      · exact absurd (hmax c (List.mem_cons_of_mem b (List.mem_cons_self c t)))
          (fun hle => not_dateLt_and_ge hac hle)
      · exact h
    rw [List.getLast?_cons_cons]
    exact getLast?_of_max (c :: t) (List.pairwise_cons.mp hl).2 b hb'
      (fun x hx => hmax x (List.mem_cons_of_mem a hx))

/-- C2: on a series with strictly increasing months, the lookup returns the
matching bucket's value with mode "exact" when the target's first-of-month
is present, the most recent bucket at or before the target month with mode
"prior" otherwise, "no_prior" when the target predates all buckets, and
"no_index" when the series is empty. -/
theorem C2_lookup_resolution (index_df : List Bucket) (target_date : SDate)
    (index_col : Bucket → ℚ)
    (hs : index_df.Pairwise (fun a b => dateLt a.month b.month)) :
    (index_df = [] →
      lookup_index index_df target_date index_col = (none, none, "no_index")) ∧
    (∀ b ∈ index_df, b.month = month_start target_date →
      lookup_index index_df target_date index_col =
        (some (index_col b), some (month_start target_date), "exact")) ∧
    ((∀ b ∈ index_df, b.month ≠ month_start target_date) →
      ∀ b ∈ index_df, dateLe b.month (month_start target_date) →
      (∀ x ∈ index_df, dateLe x.month (month_start target_date) →
        dateLe x.month b.month) →
      lookup_index index_df target_date index_col =
        (some (index_col b), some b.month, "prior")) ∧
    (index_df ≠ [] → (∀ b ∈ index_df, ¬ dateLe b.month (month_start target_date)) →
      lookup_index index_df target_date index_col = (none, none, "no_prior")) := by
  refine ⟨?_, ?_, ?_, ?_⟩
  · intro h
    rw [h]
    rfl
  · intro b hb hbm
    have hne : index_df ≠ [] := List.ne_nil_of_mem hb
    simp only [lookup_index, if_neg hne]
    rw [filter_month_eq index_df (month_start target_date) hs b hb hbm]
  · intro hnone b hb hble hmax
    have hne : index_df ≠ [] := List.ne_nil_of_mem hb
    simp only [lookup_index, if_neg hne]
    have hf0 : index_df.filter (fun x => decide (x.month = month_start target_date)) = [] := by
      apply List.filter_eq_nil_iff.mpr
      intro x hx
      simp only [decide_eq_true_eq]
      exact hnone x hx
    rw [hf0]
    have hps : (index_df.filter
        (fun x => decide (dateLe x.month (month_start target_date)))).Pairwise
        (fun a b => dateLt a.month b.month) := hs.filter _
    have hsorted : List.Sorted bucketLe
        (index_df.filter (fun x => decide (dateLe x.month (month_start target_date)))) :=
      hps.imp (fun h => dateLe_of_lt h)
    rw [List.Sorted.insertionSort_eq hsorted]
    have hbf : b ∈ index_df.filter
        (fun x => decide (dateLe x.month (month_start target_date))) :=
      List.mem_filter.mpr ⟨hb, by simpa using hble⟩
    have hmaxf : ∀ x ∈ index_df.filter
        (fun x => decide (dateLe x.month (month_start target_date))),
        dateLe x.month b.month := by
      intro x hx
      have hx' := List.mem_filter.mp hx
      exact hmax x hx'.1 (by simpa using hx'.2)
    rw [getLast?_of_max _ hps b hbf hmaxf]
  · intro hne hno
    simp only [lookup_index, if_neg hne]
    have hf0 : index_df.filter (fun x => decide (x.month = month_start target_date)) = [] := by
      apply List.filter_eq_nil_iff.mpr
      intro x hx
      simp only [decide_eq_true_eq]
      intro hxm
      exact hno x hx (by rw [hxm]; exact dateLe_refl _)
    have hf1 : index_df.filter
        (fun x => decide (dateLe x.month (month_start target_date))) = [] := by
      apply List.filter_eq_nil_iff.mpr
      intro x hx
      simp only [decide_eq_true_eq]
      exact hno x hx
    rw [hf0, hf1]
    rfl

/-- Witness for C2: a two-bucket series looked up at a later date resolves
to the most recent bucket with mode "prior". -/
theorem C2_lookup_resolution_witness :
    lookup_index c2series ⟨2024, 4, 15⟩ (fun b => b.rawIndex) =
      (some (11/10), some ⟨2024, 3, 1⟩, "prior") :=
  (C2_lookup_resolution c2series ⟨2024, 4, 15⟩ (fun b => b.rawIndex) (by decide)).2.2.1
    (by decide) ⟨⟨2024, 3, 1⟩, 4, some 110, false, 11/10⟩
    (by simp [c2series]) (by decide) (by decide)

/-- C9: the post-processor clamps the smoothing window to at least 2 rather
than rejecting smaller values; the centered rolling standard deviation needs
at least two observations in the window and fills the undefined entries
with 0; and the regression column degenerates to the smoothed column when
fewer than two finite raw-index points exist. -/
theorem C9_postprocessor_degenerate (l : List (Option ℚ)) (sw : ℤ) :
    (add_smoothed_and_regression l sw = add_smoothed_and_regression l (max 2 sw) ∧
      2 ≤ max 2 sw) ∧
    (∀ i, i < l.length → (windowObs l (max 2 sw).toNat i).length < 2 →
      (rollingStdCol l (max 2 sw).toNat).getD i 1 = 0) ∧
    ((finitePoints l).length < 2 →
      regressionCol l (max 2 sw).toNat = rollingMeanCol l (max 2 sw).toNat) := by
  refine ⟨⟨?_, le_max_left 2 sw⟩, ?_, ?_⟩
  · unfold add_smoothed_and_regression
    rw [← max_assoc, max_self]
  · intro i hi hobs
    unfold rollingStdCol
    rw [List.getD_eq_getElem?_getD, List.getElem?_map, List.getElem?_range hi]
    simp [hobs]
  · intro hfp
    unfold regressionCol
    rw [if_neg]
    intro hand
    omega

/-- Witness for C9 on the singleton raw-index column with window request 0. -/
theorem C9_postprocessor_degenerate_witness :
    (rollingStdCol [some 1] 2).getD 0 1 = 0 ∧
    regressionCol [some 1] 2 = rollingMeanCol [some 1] 2 :=
  ⟨(C9_postprocessor_degenerate [some 1] 0).2.1 0 (by decide) (by decide),
   (C9_postprocessor_degenerate [some 1] 0).2.2 (by decide)⟩

/-- C5: the regression-residual rule sets no flags when fewer than 6 valid
records exist; with at least 6 records, a record carries the price-deviation
flag exactly when its studentized residual magnitude (|residual| over the
residual standard deviation, falling back to 1.0 when that deviation is
zero) exceeds 2.0, and the high-influence flag exactly when its Cook's
distance exceeds 4/n.  The residuals are those of the least-squares fit of
`log(max(1, price))` against elapsed days (see `residOf`). -/
theorem C5_regression_flags (recs : List SaleRecord) (i : ℕ) :
    (recs.length < 6 → ¬ highLeverageFlag recs i ∧ ¬ highCooksDFlag recs i) ∧
    (6 ≤ recs.length →
      ((highLeverageFlag recs i ↔
        2 < |residAt recs i| / (if 0 < residStd recs then residStd recs else 1)) ∧
       (highCooksDFlag recs i ↔ 4 / (recs.length : ℝ) < cooksAt recs i))) := by
  constructor
  · intro h
    constructor <;> rintro ⟨h6, _⟩ <;> omega
  · intro h6
    constructor
    · unfold highLeverageFlag studentizedAt residStdFallback residAt
      simp [h6]
    · unfold highCooksDFlag
      simp [h6]

/-- Witness for C5: a single record is never flagged, and on a concrete
six-record set both flags are equivalent to their statistic thresholds. -/
theorem C5_regression_flags_witness :
    (¬ highLeverageFlag [⟨⟨2024, 1, 1⟩, 1⟩] 0 ∧ ¬ highCooksDFlag [⟨⟨2024, 1, 1⟩, 1⟩] 0) ∧
    ((highLeverageFlag c5recs 0 ↔
        2 < |residAt c5recs 0| / (if 0 < residStd c5recs then residStd c5recs else 1)) ∧
     (highCooksDFlag c5recs 0 ↔ 4 / (c5recs.length : ℝ) < cooksAt c5recs 0)) :=
  ⟨(C5_regression_flags [⟨⟨2024, 1, 1⟩, 1⟩] 0).1 (by decide),
   (C5_regression_flags c5recs 0).2 (by decide)⟩

/-- Casting an integer list sum into the reals. -/
theorem intListSum_cast (l : List ℤ) :
    ((l.sum : ℤ) : ℝ) = (l.map (fun t : ℤ => (t : ℝ))).sum := by
  induction l with
  | nil => simp
  | cons a t ih => simp [ih]

/-- Casting an integer list sum of squares into the reals. -/
theorem intListSum_cast_sq (l : List ℤ) :
    (((l.map (fun t => t * t)).sum : ℤ) : ℝ) = (l.map (fun t : ℤ => (t : ℝ) * (t : ℝ))).sum := by
  induction l with
  | nil => simp
  | cons a t ih => simp [ih]

/-- Sum of an affine image of an integer list. -/
theorem sum_map_affine (l : List ℤ) (a b : ℝ) :
    (l.map (fun t : ℤ => a + b * (t : ℝ))).sum =
      a * l.length + b * (l.map (fun t : ℤ => (t : ℝ))).sum := by
  induction l with
  | nil => simp
  | cons c t ih =>
    simp only [List.map_cons, List.sum_cons, List.length_cons, ih, Nat.cast_add, Nat.cast_one]
    ring

/-- Sum of x times an affine image of an integer list. -/
theorem sum_map_mul_affine (l : List ℤ) (a b : ℝ) :
    (l.map (fun t : ℤ => (t : ℝ) * (a + b * (t : ℝ)))).sum =
      a * (l.map (fun t : ℤ => (t : ℝ))).sum +
        b * (l.map (fun t : ℤ => (t : ℝ) * (t : ℝ))).sum := by
  induction l with
  | nil => simp
  | cons c t ih =>
    simp only [List.map_cons, List.sum_cons, ih]
    ring

/-- Zipping a list against a mapped copy of itself is a map. -/
theorem zipWith_map_self {α β γ : Type} (f : α → β) (g : α → β → γ) (l : List α) :
    List.zipWith g l (l.map f) = l.map (fun x => g x (f x)) := by
  induction l with
  | nil => rfl
  | cons a t ih => simp [ih]

/-- A list sum of integer squares is nonnegative. -/
theorem sum_sq_nonneg_int (l : List ℤ) : 0 ≤ (l.map (fun r => r * r)).sum := by
  induction l with
  | nil => simp
  | cons a t ih =>
    simp only [List.map_cons, List.sum_cons]
    nlinarith [mul_self_nonneg a]

/-- A vanishing sum of integer squares has every square-root term zero. -/
theorem sum_sq_zero_int {l : List ℤ} (h : (l.map (fun r => r * r)).sum = 0) :
    ∀ r ∈ l, r = 0 := by
  induction l with
  | nil => simp
  | cons a t ih =>
    simp only [List.map_cons, List.sum_cons] at h
    have ht := sum_sq_nonneg_int t
    have ha : a = 0 := by nlinarith [mul_self_nonneg a]
    intro r hr
    rcases List.mem_cons.mp hr with rfl | hrt
    · exact ha
    · exact ih (by nlinarith [mul_self_nonneg a]) r hrt

/-- Sum of a quadratic image of an integer list. -/
theorem sum_map_quad (l : List ℤ) (α β γ : ℤ) :
    (l.map (fun t => α * (t * t) + β * t + γ)).sum =
      α * (l.map (fun t => t * t)).sum + β * l.sum + γ * l.length := by
  induction l with
  | nil => simp
  | cons a t ih =>
    simp only [List.map_cons, List.sum_cons, List.length_cons, ih]
    push_cast
    ring

/-- When the normal-equations determinant vanishes, every regressor equals
the common value `sum / length` (in scaled integer form). -/
theorem det_zero_all_eq (l : List ℤ)
    (h : (l.length : ℤ) * (l.map (fun t => t * t)).sum - l.sum * l.sum = 0) :
    ∀ t ∈ l, (l.length : ℤ) * t = l.sum := by
  have hfn : (fun t : ℤ => ((l.length : ℤ) * t - l.sum) * ((l.length : ℤ) * t - l.sum)) =
      (fun t : ℤ => ((l.length : ℤ) * (l.length : ℤ)) * (t * t) +
        (-(2 * (l.length : ℤ) * l.sum)) * t + l.sum * l.sum) := by
    funext t
    ring
  have key : (l.map (fun t => ((l.length : ℤ) * t - l.sum) * ((l.length : ℤ) * t - l.sum))).sum
      = (l.length : ℤ) *
        ((l.length : ℤ) * (l.map (fun t => t * t)).sum - l.sum * l.sum) := by
    rw [hfn, sum_map_quad]
    ring
  rw [h, mul_zero] at key
  have key2 : ((l.map (fun t => (l.length : ℤ) * t - l.sum)).map (fun r => r * r)).sum = 0 := by
    rw [List.map_map]
    exact key
  intro t ht
  have hmem : (l.length : ℤ) * t - l.sum ∈ l.map (fun t => (l.length : ℤ) * t - l.sum) :=
    List.mem_map_of_mem _ ht
  have := sum_sq_zero_int key2 _ hmem
  omega

/-- Sum of an integer list with all elements equal. -/
theorem sum_of_all_eq_int (l : List ℤ) (c : ℤ) (h : ∀ t ∈ l, t = c) :
    l.sum = l.length * c := by
  induction l with
  | nil => simp
  | cons a t ih =>
    simp only [List.sum_cons, List.length_cons]
    rw [h a (List.mem_cons_self a t), ih (fun x hx => h x (List.mem_cons_of_mem a hx))]
    push_cast
    ring

/-- Sum of squares of an integer list with all elements equal. -/
theorem sum_sq_of_all_eq_int (l : List ℤ) (c : ℤ) (h : ∀ t ∈ l, t = c) :
    (l.map (fun t => t * t)).sum = l.length * (c * c) := by
  induction l with
  | nil => simp
  | cons a t ih =>
    simp only [List.map_cons, List.sum_cons, List.length_cons]
    rw [h a (List.mem_cons_self a t), ih (fun x hx => h x (List.mem_cons_of_mem a hx))]
    push_cast
    ring

/-- Amended C6: when the log-price regressands `log(max(1, price))` lie
exactly on one linear function of elapsed days (so the fitted residuals are
exactly zero — e.g. constant prices, or prices exponential in time), the
regression-residual rule flags no record: neither the price-deviation flag
nor the Cook's-distance flag is set. -/
theorem C6_amended_loglinear_no_flags (recs : List SaleRecord) (a b : ℝ) (i : ℕ)
    (h6 : 6 ≤ recs.length)
    (hlin : ysOf recs = (xsOf recs).map (fun t : ℤ => a + b * (t : ℝ))) :
    ¬ highLeverageFlag recs i ∧ ¬ highCooksDFlag recs i := by
  have hxlen : (xsOf recs).length = recs.length := by simp [xsOf]
  have hNpos : (0 : ℝ) < (recs.length : ℝ) := by
    have : 0 < recs.length := by omega
    exact_mod_cast this
  have hsy : syOf recs = a * (recs.length : ℝ) + b * ((sxOf recs : ℤ) : ℝ) := by
    rw [syOf, hlin, sum_map_affine, hxlen, sxOf, intListSum_cast]
  have hsxy : sxyOf recs =
      a * ((sxOf recs : ℤ) : ℝ) + b * ((sxxOf recs : ℤ) : ℝ) := by
    rw [sxyOf, hlin, zipWith_map_self, sum_map_mul_affine, sxOf, intListSum_cast,
      sxxOf, intListSum_cast_sq]
  have hform : residOf recs = (xsOf recs).map
      (fun t : ℤ => (a + b * (t : ℝ)) - (beta0 recs + beta1 recs * (t : ℝ))) := by
    rw [residOf, hlin, zipWith_map_self]
  have hres0 : ∀ r ∈ residOf recs, r = 0 := by
    rcases eq_or_ne (detOf recs) 0 with hdet | hdet
    · -- singular normal equations: every elapsed-day value is the same
      have hd : ((xsOf recs).length : ℤ) * ((xsOf recs).map (fun t => t * t)).sum -
          (xsOf recs).sum * (xsOf recs).sum = 0 := by
        rw [hxlen]
        unfold detOf sxOf sxxOf at hdet
        exact hdet
      have hall := det_zero_all_eq (xsOf recs) hd
      obtain ⟨x0, xs', hxs⟩ : ∃ x0 xs', xsOf recs = x0 :: xs' := by
        cases hx : xsOf recs with
        | nil => rw [hx] at hxlen; simp at hxlen; omega
        | cons x0 xs' => exact ⟨x0, xs', rfl⟩
      have hc : ∀ t ∈ xsOf recs, t = x0 := by
        intro t ht
        have h1 := hall t ht
        have h2 := hall x0 (by rw [hxs]; exact List.mem_cons_self _ _)
        have hn0 : ((xsOf recs).length : ℤ) ≠ 0 := by
          rw [hxlen]; omega
        exact mul_left_cancel₀ hn0 (h1.trans h2.symm)
      have hSX : ((sxOf recs : ℤ) : ℝ) = (recs.length : ℝ) * ((x0 : ℤ) : ℝ) := by
        rw [sxOf, sum_of_all_eq_int _ x0 hc, hxlen]
        push_cast
        ring
      have hSXX : ((sxxOf recs : ℤ) : ℝ) =
          (recs.length : ℝ) * (((x0 : ℤ) : ℝ) * ((x0 : ℤ) : ℝ)) := by
        rw [sxxOf, sum_sq_of_all_eq_int _ x0 hc, hxlen]
        push_cast
        ring
      have htr : ((trOf recs : ℤ) : ℝ) =
          (recs.length : ℝ) * (1 + ((x0 : ℤ) : ℝ) * ((x0 : ℤ) : ℝ)) := by
        unfold trOf
        push_cast
        rw [hSXX]
        ring
      have hx2 : (0 : ℝ) < 1 + ((x0 : ℤ) : ℝ) * ((x0 : ℤ) : ℝ) := by
        nlinarith [mul_self_nonneg ((x0 : ℤ) : ℝ)]
      intro r hr
      rw [hform] at hr
      obtain ⟨t, ht, rfl⟩ := List.mem_map.mp hr
      rw [hc t ht]
      have hb01 : beta0 recs + beta1 recs * ((x0 : ℤ) : ℝ) = a + b * ((x0 : ℤ) : ℝ) := by
        rw [beta0, beta1, inv00, inv01, inv11]
        simp only [if_neg (not_not_intro hdet)]
        rw [hsy, hsxy, hSX, hSXX, htr]
        field_simp
        ring
      rw [hb01]
      ring
    · -- invertible normal equations: the fit recovers (a, b) exactly
      have hDET : ((detOf recs : ℤ) : ℝ) ≠ 0 := Int.cast_ne_zero.mpr hdet
      have hdet_expand : ((detOf recs : ℤ) : ℝ) =
          (recs.length : ℝ) * ((sxxOf recs : ℤ) : ℝ) -
            ((sxOf recs : ℤ) : ℝ) * ((sxOf recs : ℤ) : ℝ) := by
        unfold detOf
        push_cast
        ring
      have hb0 : beta0 recs = a := by
        rw [beta0, inv00, inv01]
        simp only [if_pos hdet]
        rw [hsy, hsxy]
        field_simp
        rw [hdet_expand]
        ring
      have hb1 : beta1 recs = b := by
        rw [beta1, inv01, inv11]
        simp only [if_pos hdet]
        rw [hsy, hsxy]
        field_simp
        rw [hdet_expand]
        ring
      intro r hr
      rw [hform] at hr
      obtain ⟨t, ht, rfl⟩ := List.mem_map.mp hr
      rw [hb0, hb1]
      ring
  have hsum0 : (residOf recs).sum = 0 := List.sum_eq_zero hres0
  have hmean : residMean recs = 0 := by
    rw [residMean, hsum0, zero_div]
  have hstd : residStd recs = 0 := by
    rw [residStd]
    have h0 : ((residOf recs).map (fun r => (r - residMean recs) ^ 2)).sum = 0 := by
      apply List.sum_eq_zero
      intro x hx
      obtain ⟨r, hr, rfl⟩ := List.mem_map.mp hx
      rw [hres0 r hr, hmean]
      ring
    rw [h0, zero_div, Real.sqrt_zero]
  have hfb : residStdFallback recs = 1 := by
    rw [residStdFallback, hstd]
    simp
  have hresAt : ∀ j, residAt recs j = 0 := by
    intro j
    rw [residAt, List.getD_eq_getElem?_getD]
    cases hx : (residOf recs)[j]? with
    | none => rfl
    | some r =>
      have hmem : r ∈ residOf recs := List.getElem?_mem hx
      simp [hres0 r hmem]
  have hcooksAt : ∀ j, cooksAt recs j = 0 := by
    intro j
    rw [cooksAt, List.getD_eq_getElem?_getD]
    rw [cooksOf]
    cases hx : (List.zipWith
        (fun r h => (r ^ 2 / (2 * (mseOf recs + epsReg))) *
          (h / (max epsReg (1 - h)) ^ 2))
        (residOf recs) (leverageOf recs))[j]? with
    | none => rfl
    | some x =>
      obtain ⟨r, hv, hr, hh, rfl⟩ := zipWith_getElem?_inv _ _ _ _ _ hx
      have hrm : r ∈ residOf recs := List.getElem?_mem hr
      simp [hres0 r hrm]
  constructor
  · rintro ⟨_, hgt⟩
    rw [studentizedAt, hresAt, hfb] at hgt
    simp at hgt
    linarith
  · rintro ⟨_, hgt⟩
    rw [hcooksAt] at hgt
    have hpos : (0 : ℝ) < 4 / (recs.length : ℝ) := by positivity
    linarith

/-- Witness for the amended C6: six constant-price records (log-prices all
zero, a degenerate linear trend) are never flagged. -/
theorem C6_amended_loglinear_no_flags_witness :
    ¬ highLeverageFlag c5recs 0 ∧ ¬ highCooksDFlag c5recs 0 :=
  C6_amended_loglinear_no_flags c5recs 0 0 0 (by decide) (by
    have h1 : ysOf c5recs = [0, 0, 0, 0, 0, 0] := by
      norm_num [ysOf, c5recs, Real.log_one]
    have h2 : (xsOf c5recs).map (fun t : ℤ => (0 : ℝ) + 0 * (t : ℝ)) =
        List.replicate (xsOf c5recs).length 0 := by
      simp
    have h3 : (xsOf c5recs).length = 6 := by simp [xsOf, c5recs]
    rw [h1, h2, h3]
    rfl)

/-- Elapsed days of the six counterexample records: six consecutive days. -/
theorem c6_xs : xsOf c6recs = [0, 1, 2, 3, 4, 5] := by decide

/-- Log-price regressands of the counterexample records: zero for the five
prices at most 1, and `log (9/8)` for the last. -/
theorem c6_ys : ysOf c6recs = [0, 0, 0, 0, 0, Real.log (9 / 8)] := by
  norm_num [ysOf, c6recs, max_def, Real.log_one]

/-- Sum of the counterexample regressands. -/
theorem c6_sy : syOf c6recs = Real.log (9 / 8) := by
  rw [syOf, c6_ys]
  simp

/-- Sum of x·y over the counterexample records. -/
theorem c6_sxy : sxyOf c6recs = 5 * Real.log (9 / 8) := by
  rw [sxyOf, c6_xs, c6_ys]
  simp

/-- Sum of regressors of the counterexample records. -/
theorem c6_sx : sxOf c6recs = 15 := by decide

/-- Sum of squared regressors of the counterexample records. -/
theorem c6_sxx : sxxOf c6recs = 55 := by decide

/-- Normal-equations determinant of the counterexample records. -/
theorem c6_det : detOf c6recs = 105 := by decide

/-- Entry (0,0) of the inverted normal-equations matrix. -/
theorem c6_inv00 : inv00 c6recs = 11 / 21 := by
  rw [inv00, if_pos (by decide : detOf c6recs ≠ 0), c6_sxx, c6_det]
  norm_num

/-- Entry (0,1) of the inverted normal-equations matrix. -/
theorem c6_inv01 : inv01 c6recs = -(1 / 7) := by
  rw [inv01, if_pos (by decide : detOf c6recs ≠ 0), c6_sx, c6_det]
  norm_num

/-- Entry (1,1) of the inverted normal-equations matrix. -/
theorem c6_inv11 : inv11 c6recs = 2 / 35 := by
  rw [inv11, if_pos (by decide : detOf c6recs ≠ 0), c6_det]
  norm_num [c6recs]

/-- Fitted intercept on the counterexample records. -/
theorem c6_b0 : beta0 c6recs = -(4 / 21) * Real.log (9 / 8) := by
  rw [beta0, c6_inv00, c6_inv01, c6_sy, c6_sxy]
  ring

/-- Fitted slope on the counterexample records. -/
theorem c6_b1 : beta1 c6recs = 1 / 7 * Real.log (9 / 8) := by
  rw [beta1, c6_inv01, c6_inv11, c6_sy, c6_sxy]
  ring

/-- Residual vector of the counterexample records. -/
theorem c6_resid : residOf c6recs =
    [4 / 21 * Real.log (9 / 8), 1 / 21 * Real.log (9 / 8), -(2 / 21) * Real.log (9 / 8),
     -(5 / 21) * Real.log (9 / 8), -(8 / 21) * Real.log (9 / 8),
     10 / 21 * Real.log (9 / 8)] := by
  rw [residOf, c6_xs, c6_ys, c6_b0, c6_b1]
  simp only [List.zipWith_cons_cons, List.zipWith_nil_left, List.cons.injEq, and_true]
  refine ⟨?_, ?_, ?_, ?_, ?_, ?_⟩ <;> push_cast <;> ring

/-- Leverage vector of the counterexample records. -/
theorem c6_lev : leverageOf c6recs =
    [11 / 21, 31 / 105, 19 / 105, 19 / 105, 31 / 105, 11 / 21] := by
  rw [leverageOf, c6_xs, c6_inv00, c6_inv01, c6_inv11]
  simp only [List.map_cons, List.map_nil, List.cons.injEq, and_true]
  refine ⟨?_, ?_, ?_, ?_, ?_, ?_⟩ <;> push_cast <;> ring

/-- Mean squared error of the counterexample fit. -/
theorem c6_mse : mseOf c6recs = 5 / 42 * Real.log (9 / 8) ^ 2 := by
  rw [mseOf, c6_resid]
  norm_num [c6recs]
  ring

/-- Cook's distance of the last counterexample record, in closed form. -/
theorem c6_cook5 : cooksAt c6recs 5 =
    ((10 / 21 * Real.log (9 / 8)) ^ 2 / (2 * (mseOf c6recs + epsReg))) *
      ((11 / 21) / (max epsReg (1 - 11 / 21)) ^ 2) := by
  rw [cooksAt, cooksOf, c6_resid, c6_lev]
  rfl

/-- A rational lower bound on `log (9/8)`, from `1 + x ≤ exp x`. -/
theorem log_nine_eighths_gt : (1 : ℝ) / 10 < Real.log (9 / 8) := by
  have h3 : (0 : ℝ) < Real.exp (1 / 10) := Real.exp_pos _
  have h2 := Real.add_one_le_exp (-(1 / 10) : ℝ)
  rw [Real.exp_neg] at h2
  have h4 : Real.exp (1 / 10) * (Real.exp (1 / 10))⁻¹ = 1 := mul_inv_cancel₀ (ne_of_gt h3)
  have h1 : Real.exp (1 / 10) ≤ 10 / 9 := by nlinarith
  have h5 : Real.exp (1 / 10) < 9 / 8 := lt_of_le_of_lt h1 (by norm_num)
  have h6 := Real.log_lt_log h3 h5
  rwa [Real.log_exp] at h6

/-- Counterexample to C6 as stated: six valid records whose prices lie
exactly on the single linear time trend `price = 1/2 + days/8`, yet the
regression-residual rule flags the last record as a high-influence
(Cook's-distance) outlier. -/
theorem C6_linear_trend_counterexample :
    c6recs.length = 6 ∧
    c6recs.map (fun r => r.soldPrice) =
      (xsOf c6recs).map (fun t : ℤ => 1 / 2 + (t : ℚ) / 8) ∧
    highCooksDFlag c6recs 5 := by
  refine ⟨rfl, ?_, ?_⟩
  · rw [c6_xs]
    norm_num [c6recs]
  · refine ⟨by decide, ?_⟩
    have hlen : ((c6recs.length : ℕ) : ℝ) = 6 := by norm_num [c6recs]
    rw [hlen, c6_cook5, c6_mse]
    have hmax : max epsReg (1 - 11 / 21 : ℝ) = 10 / 21 := by
      rw [max_eq_right]
      · norm_num
      · rw [epsReg]
        norm_num
    rw [hmax]
    have hL := log_nine_eighths_gt
    have hL2 : (1 : ℝ) / 100 < Real.log (9 / 8) ^ 2 := by nlinarith
    have hden : (0 : ℝ) < 2 * (5 / 42 * Real.log (9 / 8) ^ 2 + epsReg) := by
      rw [epsReg]
      positivity
    rw [div_mul_eq_mul_div, lt_div_iff₀ hden, epsReg]
    nlinarith [hL2, sq_nonneg (Real.log (9 / 8))]
